import Mathlib

/-!
Verification of the sebak transactional key-value storage layer
(`lib/storage/leveldb.go`, package `sebakstorage`).

The backing engine (goleveldb) is an external collaborator: it is modelled
as a byte-lexicographically sorted association list from keys to byte
strings, which is exactly the ordered-map contract the spec assigns to it
(existence check, point get/put/delete, atomic batch write, ordered range
cursors).  Keys and byte strings are modelled as `List Nat`; `makeKey` is
the identity byte mapping, as in the source.
-/

namespace SebakStorage

/-- Byte strings: the model of Go `[]byte`. -/
abbrev Bytes := List Nat

/-- Strict byte-lexicographic order on keys, the order the engine sorts by. -/
def keyLt : Bytes → Bytes → Bool
  | _, [] => false
  | [], _ :: _ => true
  | a :: as, b :: bs =>
    if a < b then true
    else if b < a then false
    else keyLt as bs

theorem keyLt_irrefl : ∀ a : Bytes, keyLt a a = false := by
  intro a
  induction a with
  | nil => rfl
  | cons x xs ih => simp [keyLt, ih]

theorem keyLt_trans : ∀ a b c : Bytes,
    keyLt a b = true → keyLt b c = true → keyLt a c = true := by
  intro a
  induction a with
  | nil =>
    intro b c hab hbc
    cases b with
    | nil => exact absurd hab (by simp [keyLt])
    | cons y ys =>
      cases c with
      | nil => exact absurd hbc (by simp [keyLt])
      | cons z zs => simp [keyLt]
  | cons x xs ih =>
    intro b c hab hbc
    cases b with
    | nil => exact absurd hab (by simp [keyLt])
    | cons y ys =>
      cases c with
      | nil => exact absurd hbc (by simp [keyLt])
      | cons z zs =>
        simp only [keyLt] at hab hbc ⊢
        by_cases hxy : x < y
        · by_cases hyz : y < z
          · simp [Nat.lt_trans hxy hyz]
          · simp only [if_pos hxy] at hab
            by_cases hzy : z < y
            · simp only [if_neg hyz, if_pos hzy] at hbc
              exact absurd hbc (by simp)
            · have : y = z := Nat.le_antisymm (Nat.le_of_not_lt hzy) (Nat.le_of_not_lt hyz)
              subst this
              simp [hxy]
        · by_cases hyx : y < x
          · simp [hxy, hyx] at hab
          · have hx : x = y := Nat.le_antisymm (Nat.le_of_not_lt hyx) (Nat.le_of_not_lt hxy)
            subst hx
            simp only [if_neg hxy, if_neg hyx] at hab
            by_cases hyz : x < z
            · simp [hyz]
            · by_cases hzy : z < x
              · simp [hyz, hzy] at hbc
              · simp only [if_neg hyz, if_neg hzy] at hbc ⊢
                exact ih ys zs hab hbc

theorem keyLt_or_eq : ∀ a b : Bytes,
    keyLt a b = false → keyLt b a = false → a = b := by
  intro a
  induction a with
  | nil =>
    intro b hab _
    cases b with
    | nil => rfl
    | cons y ys => simp [keyLt] at hab
  | cons x xs ih =>
    intro b hab hba
    cases b with
    | nil => simp [keyLt] at hba
    | cons y ys =>
      simp only [keyLt] at hab hba
      by_cases hxy : x < y
      · simp [hxy] at hab
      · by_cases hyx : y < x
        · simp [hyx, hxy] at hba
        · have hx : x = y := Nat.le_antisymm (Nat.le_of_not_lt hyx) (Nat.le_of_not_lt hxy)
          subst hx
          simp only [if_neg hxy] at hab hba
          rw [ih ys hab hba]

/-- The engine's key space: a byte-sorted association list from keys to
stored byte strings.  This is the ordered-map contract of the external
engine (goleveldb), which the spec treats as a black box. -/
abbrev Store := List (Bytes × Bytes)

/-- Engine point lookup. -/
def lookup : Store → Bytes → Option Bytes
  | [], _ => none
  | (k', v') :: rest, k => if k = k' then some v' else lookup rest k

/-- Engine point put: ordered insert-or-replace, keeping the list sorted. -/
def put : Store → Bytes → Bytes → Store
  | [], k, v => [(k, v)]
  | (k', v') :: rest, k, v =>
    if keyLt k k' then (k, v) :: (k', v') :: rest
    else if k = k' then (k, v) :: rest
    else (k', v') :: put rest k v

theorem lookup_put_self : ∀ (st : Store) (k v : Bytes),
    lookup (put st k v) k = some v := by
  intro st k v
  induction st with
  | nil => simp [put, lookup]
  | cons hd tl ih =>
    obtain ⟨k', v'⟩ := hd
    simp only [put]
    by_cases hlt : keyLt k k' = true
    · simp [hlt, lookup]
    · by_cases heq : k = k'
      · subst heq
        simp [keyLt_irrefl, lookup]
      · simp [hlt, heq, lookup, ih]

theorem lookup_put_other : ∀ (st : Store) (k k' v : Bytes), k' ≠ k →
    lookup (put st k v) k' = lookup st k' := by
  intro st k k' v hne
  induction st with
  | nil => simp [put, lookup, hne]
  | cons hd tl ih =>
    obtain ⟨k0, v0⟩ := hd
    simp only [put]
    by_cases hlt : keyLt k k0 = true
    · simp [hlt, lookup, hne]
    · by_cases heq : k = k0
      · subst heq
        simp [hlt, lookup, hne]
      · by_cases h0 : k' = k0
        · simp [hlt, heq, lookup, h0]
        · simp [hlt, heq, lookup, h0, ih]

/-- Whether the store is byte-sorted (adjacent keys strictly ascending);
an invariant of the ordered engine. -/
def ascB : List Bytes → Bool
  | [] => true
  | [_] => true
  | a :: b :: rest => keyLt a b && ascB (b :: rest)

/-- Sortedness of a store, on its key column. -/
def storeSortedB (st : Store) : Bool :=
  ascB (st.map Prod.fst)

/-! ## Value encoding

Modelled from the spec: the repository's generic structured encoder
(`sebakcommon.EncodeJSONValue` in `lib/common`, not under `src/`) is
specified only by its round-trip obligation.  The value universe is
numbers, strings, and `Item`-shaped objects `{Key, Value}` (the one object
shape the storage layer itself ever encodes); the encoder below is a
self-delimiting structured encoding for which the round-trip law is
proved. -/
inductive Value where
  | vnum : Nat → Value
  | vstr : Bytes → Value
  | vitem : Bytes → Value → Value
  deriving DecidableEq

/-- Modelled from the spec: generic structured encoding of a value to
bytes; total on the encodable universe, injective, with a decoder. -/
def encodeVal : Value → Bytes
  | .vnum z => [0, z]
  | .vstr s => 1 :: s.length :: s
  | .vitem k v => 2 :: k.length :: (k ++ encodeVal v)

/-- Modelled from the spec: structured decoder, the inverse of
`encodeVal`; returns the decoded value and the remaining bytes. -/
def decodeVal (l : Bytes) : Option (Value × Bytes) :=
  match l with
  | 0 :: z :: rest => some (.vnum z, rest)
  | 1 :: len :: rest =>
    if len ≤ rest.length then some (.vstr (rest.take len), rest.drop len) else none
  | 2 :: klen :: rest =>
    if klen ≤ rest.length then
      match decodeVal (rest.drop klen) with
      | some (v, rest') => some (.vitem (rest.take klen) v, rest')
      | none => none
    else none
  | _ => none
termination_by l.length
decreasing_by
  simp only [List.length_cons, List.length_drop]
  omega

theorem take_len_append : ∀ (s r : Bytes), (s ++ r).take s.length = s := by
  intro s r
  induction s with
  | nil => rfl
  | cons x xs ih => simp [ih]

theorem drop_len_append : ∀ (s r : Bytes), (s ++ r).drop s.length = r := by
  intro s r
  induction s with
  | nil => rfl
  | cons x xs ih => simp [ih]

/-- The round-trip law of the generic structured encoding: decoding an
encoded value recovers it exactly, leaving the remaining bytes intact. -/
theorem decode_encode : ∀ (v : Value) (rest : Bytes),
    decodeVal (encodeVal v ++ rest) = some (v, rest) := by
  intro v
  induction v with
  | vnum z => intro rest; simp [encodeVal, decodeVal]
  | vstr s =>
    intro rest
    simp only [encodeVal, List.cons_append, decodeVal]
    rw [if_pos (by simp)]
    rw [take_len_append, drop_len_append]
  | vitem k v ih =>
    intro rest
    simp only [encodeVal, List.cons_append, List.append_assoc, decodeVal]
    rw [if_pos (by simp)]
    rw [take_len_append, drop_len_append, ih]

/-- The generic structured encoding is injective on the value universe. -/
theorem encodeVal_inj : ∀ v w : Value, encodeVal v = encodeVal w → v = w := by
  intro v w h
  have hv := decode_encode v []
  have hw := decode_encode w []
  rw [List.append_nil] at hv hw
  rw [h, hw] at hv
  injection hv with hv
  injection hv with hv
  exact hv.symm

/-- An `Item`-shaped object is never equal to the value stored in its own
`Value` field (it is a strictly larger term). -/
theorem vitem_ne : ∀ (k : Bytes) (v : Value), Value.vitem k v ≠ v := by
  intro k v h
  have := congrArg sizeOf h
  simp only [Value.vitem.sizeOf_spec] at this
  omega

/-! ## Go values and the `Serializable` capability

Modelled from the spec: a value passed as Go `interface{}` either exposes
the optional `Serialize() -> (bytes, error)` capability (`lib/common`'s
`sebakcommon.Serializable`, not under `src/`) or not.  A `withSerialize`
value carries the result its `Serialize` method would return (`none`
models a failing `Serialize`); `underlying` is the structure the generic
encoder sees when marshalling it. -/
inductive GoValue where
  | plain : Value → GoValue
  | withSerialize : Value → Option Bytes → GoValue
  deriving DecidableEq

/-- The structured value the generic encoder marshals for a Go value. -/
def underlying : GoValue → Value
  | .plain v => v
  | .withSerialize v _ => v

/-- The encoding step of `New` (`leveldb.go` lines 128-137): use the
value-specific `Serialize` capability when the value exposes one, else
the generic structured encoder.  `none` is a failed `Serialize`. -/
def encodeForNew : GoValue → Option Bytes
  | .plain v => some (encodeVal v)
  | .withSerialize _ r => r

/-- `Item{Key string, Value interface{}}`: the input unit of the batch
operations `News` and `Sets`. -/
structure Item where
  Key : Bytes
  Value : GoValue
  deriving DecidableEq

/-- The structured value the generic encoder produces for a whole `Item`
(a `{Key, Value}` object), as marshalled by `News`/`Sets`. -/
def itemToValue (it : Item) : Value :=
  .vitem it.Key (underlying it.Value)

/-- Error kinds of the storage layer.  The Go code builds them with
`errors.New`/`fmt.Errorf`; the constructors carry the key the message
interpolates.  `serializeFailed` is an error returned by a value's own
`Serialize`; `txDone` is the engine's error for committing a finished
transaction. -/
inductive SErr where
  /-- "key, %s does not exists" -/
  | notFound : Bytes → SErr
  /-- "key, %s already exists" / "found existing key, %s" -/
  | alreadyExists : Bytes → SErr
  /-- "empty values" -/
  | emptyBatch : SErr
  /-- "this is already *leveldb.Transaction" -/
  | noNestedTransaction : SErr
  /-- "this is not *leveldb.Transaction" -/
  | notATransaction : SErr
  /-- an error propagated from a value's custom `Serialize` -/
  | serializeFailed : SErr
  /-- the engine's error for operating on a finished transaction -/
  | txDone : SErr
  /-- `json.Unmarshal` failure in `Get` -/
  | decodeError : SErr
  deriving DecidableEq

/-- `makeKey` (line 92): identity string-to-bytes mapping. -/
def makeKey (k : Bytes) : Bytes := k

/-- `Has` (line 96): engine existence check; no side effects. -/
def Has (st : Store) (k : Bytes) : Bool :=
  (lookup st (makeKey k)).isSome

/-- `GetRaw` (lines 100-112): `NotFound` if the key is absent, else the
raw stored bytes. -/
def GetRaw (st : Store) (k : Bytes) : Except SErr Bytes :=
  match lookup st (makeKey k) with
  | some b => .ok b
  | none => .error (.notFound k)

/-- `Get` (lines 114-125): `GetRaw` then generic structured decode of the
whole stored buffer. -/
def Get (st : Store) (k : Bytes) : Except SErr Value :=
  match GetRaw st k with
  | .error e => .error e
  | .ok b =>
    match decodeVal b with
    | some (v, []) => .ok v
    | _ => .error .decodeError

/-- `New` (lines 127-150): encode first (custom `Serialize` if exposed,
else generic encoder), then fail `AlreadyExists` if the key is present,
else put the encoded bytes.  The early error returns perform no engine
write, so the store is unchanged there. -/
def New (st : Store) (k : Bytes) (v : GoValue) : Except SErr Store :=
  match encodeForNew v with
  | none => .error .serializeFailed
  | some encoded =>
    if Has st k then .error (.alreadyExists k)
    else .ok (put st (makeKey k) encoded)

/-- The check loop of `News` (lines 158-166) / first phase of the batch:
the first item whose key already exists, if any. -/
def firstExisting (st : Store) : List Item → Option Bytes
  | [] => none
  | v :: rest => if Has st v.Key then some v.Key else firstExisting st rest

/-- The check loop of `Sets` (lines 208-216): the first item whose key is
absent, if any. -/
def firstMissing (st : Store) : List Item → Option Bytes
  | [] => none
  | v :: rest => if Has st v.Key then firstMissing st rest else some v.Key

/-- The engine's atomic batch write (`leveldb.Batch` filled with `Put`s
then `Write`): all puts applied in order, as one unit. -/
def applyBatch (st : Store) (puts : List (Bytes × Bytes)) : Store :=
  puts.foldl (fun s p => put s p.1 p.2) st

/-- `News` (lines 152-181): `EmptyBatch` on no items; then the check loop
(first existing key aborts with `AlreadyExists`, before any write); then
every whole `Item` is marshalled with the generic encoder into one batch,
written atomically. -/
def News (st : Store) (vs : List Item) : Except SErr Store :=
  if vs.length < 1 then .error .emptyBatch
  else
    match firstExisting st vs with
    | some k => .error (.alreadyExists k)
    | none =>
      .ok (applyBatch st (vs.map fun v => (makeKey v.Key, encodeVal (itemToValue v))))

/-- `Set` (lines 183-200): encode with the generic encoder, fail
`NotFound` if the key is absent, else overwrite. -/
def Set (st : Store) (k : Bytes) (v : GoValue) : Except SErr Store :=
  let encoded := encodeVal (underlying v)
  if Has st k then .ok (put st (makeKey k) encoded)
  else .error (.notFound k)

/-- `Sets` (lines 202-231): `EmptyBatch` on no items; then the check loop
(first missing key aborts with `NotFound`, before any write); then every
whole `Item` is marshalled with the generic encoder into one batch,
written atomically. -/
def Sets (st : Store) (vs : List Item) : Except SErr Store :=
  if vs.length < 1 then .error .emptyBatch
  else
    match firstMissing st vs with
    | some k => .error (.notFound k)
    | none =>
      .ok (applyBatch st (vs.map fun v => (makeKey v.Key, encodeVal (itemToValue v))))

/-- `Remove` (lines 233-245): `NotFound` if the key is absent, else
delete. -/
def Remove (st : Store) (k : Bytes) : Except SErr Store :=
  if Has st k then .ok (st.filter fun e => !(e.1 = makeKey k : Bool))
  else .error (.notFound k)

/-! ## Transaction handles

`LevelDBBackend.core` is either the root `*leveldb.DB` or an open
`*leveldb.Transaction`; the runtime type test on `core` becomes a tagged
union.  The engine transaction is modelled from its contract (goleveldb is
the external engine): it buffers writes in a view, `Discard` returns
nothing (void) and merely marks the transaction finished, and committing a
finished transaction fails with the engine's transaction-done error. -/
inductive Handle where
  /-- a handle whose `core` is the root `*leveldb.DB` holding this store -/
  | rootH : Store → Handle
  /-- a handle whose `core` is a `*leveldb.Transaction`: root store,
  transactional view, and the engine's finished flag -/
  | txH : Store → Store → Bool → Handle
  deriving DecidableEq

/-- `OpenTransaction` (lines 56-71): fails if the handle's `core` is
already a transaction; otherwise derives a handle whose `core` is a fresh
engine transaction over the same store. -/
def OpenTransaction : Handle → Except SErr Handle
  | .txH _ _ _ => .error .noNestedTransaction
  | .rootH s => .ok (.txH s s false)

/-- `Discard` (lines 73-81): fails `NotATransaction` on a root handle;
otherwise calls the engine's void `Discard` (which marks the transaction
finished and cannot report an error) and returns nil. -/
def Discard : Handle → Except SErr Handle
  | .rootH _ => .error .notATransaction
  | .txH root view _ => .ok (.txH root view true)

/-- `Commit` (lines 83-90): fails `NotATransaction` on a root handle;
otherwise the engine commit — an error if the transaction is already
finished, else the view is applied atomically as the new root and the
transaction is finished. -/
def Commit : Handle → Except SErr Handle
  | .rootH _ => .error .notATransaction
  | .txH _ view done =>
    if done then .error .txDone else .ok (.txH view view true)

/-! ## Iterator protocol -/

/-- `IterItem` (one emitted record): sequence number `N` (`int64`), key
and value bytes. -/
structure IterItem where
  N : Int
  Key : Bytes
  Value : Bytes
  deriving DecidableEq

/-- The mutable state captured by the pair of closures `GetIterator`
returns: the records not yet emitted in emission order (the engine
cursor's remaining range), the `hasUnsent` flag (reverse iteration is
pre-positioned on a record), the counter `n`, and whether the engine
cursor has been released. -/
structure Iterator where
  pending : List (Bytes × Bytes)
  hasUnsent : Bool
  n : Int
  released : Bool
  deriving DecidableEq

/-- The engine range for the iteration (lines 248-253): a non-empty
string restricts the range, via `BytesPrefix`, to exactly the keys having
it as a byte prefix; otherwise the full keyspace.  Modelled from the
spec's engine contract: the cursor ranges, in ascending byte order, over
exactly the keys sharing the byte prefix. -/
def keyHasPfx : Bytes → Bytes → Bool
  | [], _ => true
  | _ :: _, [] => false
  | p :: ps, k :: ks => p = k && keyHasPfx ps ks

/-- The records the engine cursor ranges over, ascending. -/
def iterEntries (st : Store) (pfx : Bytes) : Store :=
  if pfx.length > 0 then st.filter (fun e => keyHasPfx pfx e.1) else st

/-- One call to the `next` closure (lines 270-283): an unsent
pre-positioned record is emitted with the current counter; otherwise the
cursor advances — emitting the next record with the incremented counter,
or, when exhausted, releasing the cursor and returning the zero
`IterItem` with `false`. -/
def IterNext (it : Iterator) : IterItem × Bool × Iterator :=
  if it.hasUnsent then
    match it.pending with
    | x :: rest => (⟨it.n, x.1, x.2⟩, true, ⟨rest, false, it.n, it.released⟩)
    | [] => (⟨it.n, [], []⟩, true, ⟨[], false, it.n, it.released⟩)
  else
    match it.pending with
    | [] => (⟨0, [], []⟩, false, ⟨[], false, it.n, true⟩)
    | x :: rest => (⟨it.n + 1, x.1, x.2⟩, true, ⟨rest, false, it.n + 1, it.released⟩)

/-- `GetIterator` (lines 247-287): build the (possibly prefix-bounded)
cursor; reverse iteration seeks to the last record — if there is none the
cursor is released eagerly and the returned `next` always reports no more
records; otherwise the seeked record is pending unsent.  Forward
iteration starts before the first record with `n = 0`. -/
def GetIterator (st : Store) (pfx : Bytes) (reverse : Bool) : Iterator :=
  let entries := iterEntries st pfx
  if reverse then
    match entries.reverse with
    | [] => ⟨[], false, 0, true⟩
    | l => ⟨l, true, 0, false⟩
  else ⟨entries, false, 0, false⟩

/-- Driving the `next` closure to exhaustion with enough fuel: the list
of all emitted records of one iteration session. -/
def drainFuel : Nat → Iterator → List IterItem
  | 0, _ => []
  | fuel + 1, it =>
    match IterNext it with
    | (item, true, it') => item :: drainFuel fuel it'
    | (_, false, _) => []

/-- All records one iteration session emits. -/
def drain (it : Iterator) : List IterItem :=
  drainFuel (it.pending.length + 1) it

/-- Closed form of a drained session: the pending records in order, the
first carrying `n` when pre-positioned (`hasUnsent`) and `n + 1`
otherwise, subsequent records incrementing by one. -/
def drainAux : List (Bytes × Bytes) → Bool → Int → List IterItem
  | [], false, _ => []
  | [], true, n => [⟨n, [], []⟩]
  | x :: rest, true, n => ⟨n, x.1, x.2⟩ :: drainAux rest false n
  | x :: rest, false, n => ⟨n + 1, x.1, x.2⟩ :: drainAux rest false (n + 1)

theorem drainFuel_eq_aux : ∀ (p : List (Bytes × Bytes)) (hU : Bool) (n : Int)
    (r : Bool) (fuel : Nat), p.length < fuel →
    drainFuel fuel ⟨p, hU, n, r⟩ = drainAux p hU n := by
  intro p
  induction p with
  | nil =>
    intro hU n r fuel hf
    match fuel, hf with
    | fuel + 1, _ =>
      cases hU with
      | false => simp [drainFuel, IterNext, drainAux]
      | true =>
        cases fuel with
        | zero => simp [drainFuel, IterNext, drainAux]
        | succ m => simp [drainFuel, IterNext, drainAux]
  | cons x rest ih =>
    intro hU n r fuel hf
    match fuel, hf with
    | fuel + 1, hf =>
      have hlen : rest.length < fuel := by
        simp only [List.length_cons] at hf; omega
      cases hU with
      | false =>
        simp [drainFuel, IterNext, drainAux, ih false (n + 1) r fuel hlen]
      | true =>
        simp [drainFuel, IterNext, drainAux, ih false n r fuel hlen]

theorem drain_eq : ∀ (p : List (Bytes × Bytes)) (hU : Bool) (n : Int) (r : Bool),
    drain ⟨p, hU, n, r⟩ = drainAux p hU n := by
  intro p hU n r
  exact drainFuel_eq_aux p hU n r (p.length + 1) (by omega)

/-! ## Supporting lemmas for the iteration claims -/

/-- Adjacent strictly-descending key order (what reverse iteration emits). -/
def descB : List Bytes → Bool
  | [] => true
  | [_] => true
  | a :: b :: rest => keyLt b a && descB (b :: rest)

/-- Adjacent strictly-increasing sequence numbers on emitted records. -/
def seqIncB : List IterItem → Bool
  | [] => true
  | [_] => true
  | a :: b :: rest => decide (a.N < b.N) && seqIncB (b :: rest)

theorem pairwise_of_ascB : ∀ l : List Bytes, ascB l = true →
    l.Pairwise (fun a b => keyLt a b = true) := by
  intro l
  induction l with
  | nil => intro; exact List.Pairwise.nil
  | cons a rest ih =>
    intro h
    cases rest with
    | nil => exact List.pairwise_singleton _ _
    | cons b rest' =>
      simp only [ascB, Bool.and_eq_true] at h
      have htail := ih h.2
      refine List.Pairwise.cons ?_ htail
      intro c hc
      rcases List.mem_cons.mp hc with hc | hc
      · subst hc; exact h.1
      · have hbc := (List.pairwise_cons.mp htail).1 c hc
        exact keyLt_trans a b c h.1 hbc

theorem ascB_of_pairwise : ∀ l : List Bytes,
    l.Pairwise (fun a b => keyLt a b = true) → ascB l = true := by
  intro l
  induction l with
  | nil => intro; rfl
  | cons a rest ih =>
    intro h
    cases rest with
    | nil => rfl
    | cons b rest' =>
      have := List.pairwise_cons.mp h
      simp only [ascB, Bool.and_eq_true]
      exact ⟨this.1 b (by simp), ih this.2⟩

theorem descB_of_pairwise : ∀ l : List Bytes,
    l.Pairwise (fun a b => keyLt b a = true) → descB l = true := by
  intro l
  induction l with
  | nil => intro; rfl
  | cons a rest ih =>
    intro h
    cases rest with
    | nil => rfl
    | cons b rest' =>
      have := List.pairwise_cons.mp h
      simp only [descB, Bool.and_eq_true]
      exact ⟨this.1 b (by simp), ih this.2⟩

theorem ascB_filter : ∀ (l : List Bytes) (q : Bytes → Bool), ascB l = true →
    ascB (l.filter q) = true := by
  intro l q h
  exact ascB_of_pairwise _ ((pairwise_of_ascB l h).filter q)

theorem map_fst_filter : ∀ (st : Store) (q : Bytes → Bool),
    (st.filter (fun e => q e.1)).map Prod.fst = (st.map Prod.fst).filter q := by
  intro st q
  induction st with
  | nil => rfl
  | cons e rest ih =>
    by_cases hq : q e.1
    · simp [List.filter_cons, hq, ih]
    · simp [List.filter_cons, hq, ih]

theorem iterEntries_eq_filter : ∀ (st : Store) (pfx : Bytes),
    iterEntries st pfx = st.filter (fun e => keyHasPfx pfx e.1) := by
  intro st pfx
  unfold iterEntries
  cases pfx with
  | nil =>
    simp only [List.length_nil, gt_iff_lt, Nat.lt_irrefl, if_false]
    exact (List.filter_eq_self.mpr (fun a _ => rfl)).symm
  | cons p ps => simp

theorem drainAux_keys_false : ∀ (p : List (Bytes × Bytes)) (n : Int),
    (drainAux p false n).map IterItem.Key = p.map Prod.fst := by
  intro p
  induction p with
  | nil => intro n; rfl
  | cons x rest ih => intro n; simp [drainAux, ih]

theorem drainAux_keys_true : ∀ (x : Bytes × Bytes) (rest : List (Bytes × Bytes)) (n : Int),
    (drainAux (x :: rest) true n).map IterItem.Key = (x :: rest).map Prod.fst := by
  intro x rest n
  simp [drainAux, drainAux_keys_false]

theorem seqIncB_drainAux_false : ∀ (p : List (Bytes × Bytes)) (n : Int),
    seqIncB (drainAux p false n) = true := by
  intro p
  induction p with
  | nil => intro n; rfl
  | cons x rest ih =>
    intro n
    cases rest with
    | nil => rfl
    | cons y rest' =>
      simp only [drainAux, seqIncB, Bool.and_eq_true, decide_eq_true_eq]
      exact ⟨by omega, ih (n + 1)⟩

theorem seqIncB_drainAux_true : ∀ (x : Bytes × Bytes) (rest : List (Bytes × Bytes)) (n : Int),
    seqIncB (drainAux (x :: rest) true n) = true := by
  intro x rest n
  cases rest with
  | nil => rfl
  | cons y rest' =>
    simp only [drainAux, seqIncB, Bool.and_eq_true, decide_eq_true_eq]
    exact ⟨by omega, seqIncB_drainAux_false (y :: rest') n⟩

theorem drainAux_length_false : ∀ (p : List (Bytes × Bytes)) (n : Int),
    (drainAux p false n).length = p.length := by
  intro p
  induction p with
  | nil => intro n; rfl
  | cons x rest ih => intro n; simp [drainAux, ih]

theorem drainAux_length_true : ∀ (x : Bytes × Bytes) (rest : List (Bytes × Bytes)) (n : Int),
    (drainAux (x :: rest) true n).length = (x :: rest).length := by
  intro x rest n
  simp [drainAux, drainAux_length_false]

theorem GetIterator_fwd : ∀ (st : Store) (pfx : Bytes),
    GetIterator st pfx false = ⟨iterEntries st pfx, false, 0, false⟩ := by
  intro st pfx
  rfl

theorem GetIterator_rev_nil : ∀ (st : Store) (pfx : Bytes),
    (iterEntries st pfx).reverse = [] →
    GetIterator st pfx true = ⟨[], false, 0, true⟩ := by
  intro st pfx h
  simp [GetIterator, h]

theorem GetIterator_rev_cons : ∀ (st : Store) (pfx : Bytes) (y : Bytes × Bytes)
    (l : List (Bytes × Bytes)), (iterEntries st pfx).reverse = y :: l →
    GetIterator st pfx true = ⟨y :: l, true, 0, false⟩ := by
  intro st pfx y l h
  simp [GetIterator, h]

theorem descB_reverse_of_ascB : ∀ l : List Bytes, ascB l = true →
    descB l.reverse = true := by
  intro l h
  apply descB_of_pairwise
  rw [List.pairwise_reverse]
  exact pairwise_of_ascB l h

theorem firstExisting_none_iff : ∀ (st : Store) (vs : List Item),
    firstExisting st vs = none ↔ ∀ v ∈ vs, Has st v.Key = false := by
  intro st vs
  induction vs with
  | nil => simp [firstExisting]
  | cons v rest ih =>
    by_cases hv : Has st v.Key
    · have h1 : Has st v.Key = true := hv
      simp [firstExisting, h1, List.forall_mem_cons]
    · have h1 : Has st v.Key = false := by simpa using hv
      simp [firstExisting, h1, ih, List.forall_mem_cons]

theorem firstMissing_none_iff : ∀ (st : Store) (vs : List Item),
    firstMissing st vs = none ↔ ∀ v ∈ vs, Has st v.Key = true := by
  intro st vs
  induction vs with
  | nil => simp [firstMissing]
  | cons v rest ih =>
    by_cases hv : Has st v.Key
    · have h1 : Has st v.Key = true := hv
      simp [firstMissing, h1, ih, List.forall_mem_cons]
    · have h1 : Has st v.Key = false := by simpa using hv
      simp [firstMissing, h1, List.forall_mem_cons]

/-! ## Claims -/

/-- C8: handle-role validation.  `OpenTransaction` on a handle whose core
is already a transaction fails with `NoNestedTransaction` and returns no
new handle; `Discard` and `Commit` on a non-transaction handle fail with
`NotATransaction`, and the store is unchanged (the error paths perform no
engine write). -/
theorem C8_handle_role_validation :
    ∀ (root view : Store) (done : Bool) (s : Store),
      OpenTransaction (.txH root view done) = .error .noNestedTransaction ∧
      Discard (.rootH s) = .error .notATransaction ∧
      Commit (.rootH s) = .error .notATransaction := by
  intro root view done s
  exact ⟨rfl, rfl, rfl⟩

/-- C9: `Set` on an absent key fails with `NotFound` and the storage is
unchanged (the error path performs no engine write); on a present key it
encodes the value with the generic encoder and overwrites the stored
bytes under the key. -/
theorem C9_set_requires_presence :
    ∀ (st : Store) (k : Bytes) (v : GoValue),
      (Has st k = false → Set st k v = .error (.notFound k)) ∧
      (Has st k = true →
        Set st k v = .ok (put st k (encodeVal (underlying v))) ∧
        lookup (put st k (encodeVal (underlying v))) k = some (encodeVal (underlying v))) := by
  intro st k v
  constructor
  · intro h
    simp [Set, h]
  · intro h
    exact ⟨by simp [Set, h, makeKey], lookup_put_self st k _⟩

/-- C9 witness: `Set` on the absent key `[2]` of a one-key store fails
`NotFound`; on the present key `[1]` it overwrites. -/
theorem C9_set_requires_presence_witness :
    Has [([1], [9])] [2] = false ∧
    Set [([1], [9])] [2] (.plain (.vnum 5)) = .error (.notFound [2]) ∧
    Has [([1], [9])] [1] = true ∧
    Set [([1], [9])] [1] (.plain (.vnum 5)) =
      .ok (put [([1], [9])] [1] (encodeVal (.vnum 5))) :=
  ⟨rfl, (C9_set_requires_presence [([1], [9])] [2] (.plain (.vnum 5))).1 rfl,
   rfl, ((C9_set_requires_presence [([1], [9])] [1] (.plain (.vnum 5))).2 rfl).1⟩

/-- C2 counterexample: the claim says the existence check of `New` comes
before any encoding step, so that a present key always yields
`AlreadyExists`.  In the code (lines 128-137) encoding runs first: for a
value whose `Serialize` capability fails, `New` on a present key returns
the serialization error, not `AlreadyExists`. -/
theorem C2_new_counterexample :
    Has [([1], [9])] [1] = true ∧
    New [([1], [9])] [1] (.withSerialize (.vnum 0) none) = .error .serializeFailed ∧
    (.error .serializeFailed : Except SErr Store) ≠ .error (.alreadyExists [1]) := by
  refine ⟨rfl, rfl, by simp⟩

/-- C2 amended: `New` encodes first — with the value's `Serialize`
capability when it exposes one, else the generic encoder — and only then
checks existence.  When encoding succeeds and the key is present, `New`
fails with `AlreadyExists` and the store is unchanged (no engine write on
the error path); when encoding succeeds and the key is absent, the
encoded bytes are written under the key; when `Serialize` fails, its
error is returned regardless of key presence. -/
theorem C2_new_exists_check_after_encoding :
    ∀ (st : Store) (k : Bytes) (v : GoValue),
      (encodeForNew v = none → New st k v = .error .serializeFailed) ∧
      (∀ b, encodeForNew v = some b →
        (Has st k = true → New st k v = .error (.alreadyExists k)) ∧
        (Has st k = false →
          New st k v = .ok (put st k b) ∧ lookup (put st k b) k = some b)) ∧
      (∀ w, encodeForNew (.plain w) = some (encodeVal w)) ∧
      (∀ w r, encodeForNew (.withSerialize w r) = r) := by
  intro st k v
  refine ⟨?_, ?_, fun w => rfl, fun w r => rfl⟩
  · intro h
    simp [New, h]
  · intro b hb
    constructor
    · intro h
      simp [New, hb, h]
    · intro h
      exact ⟨by simp [New, hb, h, makeKey], lookup_put_self st k b⟩

/-- C2 amended witness: on a store holding key `[1]`, `New` with a plain
value fails `AlreadyExists`; on the absent key `[2]` it writes the
generically encoded bytes; a failing `Serialize` surfaces its own
error. -/
theorem C2_new_exists_check_after_encoding_witness :
    encodeForNew (.plain (.vnum 5)) = some (encodeVal (.vnum 5)) ∧
    Has [([1], [9])] [1] = true ∧
    New [([1], [9])] [1] (.plain (.vnum 5)) = .error (.alreadyExists [1]) ∧
    Has [([1], [9])] [2] = false ∧
    New [([1], [9])] [2] (.plain (.vnum 5)) =
      .ok (put [([1], [9])] [2] (encodeVal (.vnum 5))) ∧
    encodeForNew (.withSerialize (.vnum 0) none) = none ∧
    New [([1], [9])] [1] (.withSerialize (.vnum 0) none) = .error .serializeFailed :=
  ⟨rfl, rfl,
   (((C2_new_exists_check_after_encoding [([1], [9])] [1] (.plain (.vnum 5))).2.1
      (encodeVal (.vnum 5)) rfl).1 rfl),
   rfl,
   (((C2_new_exists_check_after_encoding [([1], [9])] [2] (.plain (.vnum 5))).2.1
      (encodeVal (.vnum 5)) rfl).2 rfl).1,
   rfl,
   ((C2_new_exists_check_after_encoding [([1], [9])] [1]
      (.withSerialize (.vnum 0) none)).1 rfl)⟩

/-- C3 counterexample: the claim says calling `Commit` or `Discard` a
second time on a transaction handle is an error.  `Discard` (lines 73-81)
only checks that the core is a transaction and the engine's `Discard`
returns nothing, so the wrapper returns nil every time: the second
`Discard` succeeds. -/
theorem C3_discard_twice_counterexample :
    OpenTransaction (.rootH []) = .ok (.txH [] [] false) ∧
    Discard (.txH [] [] false) = .ok (.txH [] [] true) ∧
    Discard (.txH [] [] true) = .ok (.txH [] [] true) :=
  ⟨rfl, rfl, rfl⟩

/-- C3 amended: a transaction handle is applied at most once — after the
transaction is finished (by `Commit` or `Discard`), a second `Commit` is
an error (the engine rejects a finished transaction); but a second
`Discard` is not an error: it returns nil and is a silent no-op. -/
theorem C3_terminate_once :
    ∀ (root view : Store) (d : Bool),
      Discard (.txH root view d) = .ok (.txH root view true) ∧
      Commit (.txH root view true) = .error .txDone ∧
      Commit (.txH root view false) = .ok (.txH view view true) := by
  intro root view d
  exact ⟨rfl, rfl, rfl⟩

/-- C4: for every absent key and every value of the generic encoding's
universe, `New` writes the generic encoding of the value (the
value-specific capability being absent) and a subsequent `Get` decodes it
back to the original value — the round-trip law of the encoding. -/
theorem C4_new_get_roundtrip :
    ∀ (st : Store) (k : Bytes) (v : Value), Has st k = false →
      New st k (.plain v) = .ok (put st k (encodeVal v)) ∧
      Get (put st k (encodeVal v)) k = .ok v := by
  intro st k v h
  constructor
  · simp [New, encodeForNew, h, makeKey]
  · have hdec := decode_encode v []
    rw [List.append_nil] at hdec
    simp [Get, GetRaw, makeKey, lookup_put_self, hdec]

/-- C4 witness: on the empty store, `New` at key `[7]` with the string
value `[3, 4]` then `Get` returns exactly that value. -/
theorem C4_new_get_roundtrip_witness :
    Has [] [7] = false ∧
    New [] [7] (.plain (.vstr [3, 4])) = .ok (put [] [7] (encodeVal (.vstr [3, 4]))) ∧
    Get (put [] [7] (encodeVal (.vstr [3, 4]))) [7] = .ok (.vstr [3, 4]) :=
  ⟨rfl, (C4_new_get_roundtrip [] [7] (.vstr [3, 4]) rfl).1,
   (C4_new_get_roundtrip [] [7] (.vstr [3, 4]) rfl).2⟩

/-- C10: `News` and `Sets` marshal each whole `Item` — a `{Key, Value}`
object — with the generic encoder (lines 171, 221), not the value alone;
so for a non-`Serializable` value the bytes stored by a batch operation
always differ from the bytes `New` stores for the same value, and `Get`
on the batch-written key decodes to the `Item`-shaped object, never to
the value itself. -/
theorem C10_batch_encodes_whole_item :
    ∀ (st : Store) (k : Bytes) (v : Value),
      (Has st k = false →
        News st [⟨k, .plain v⟩] = .ok (put st k (encodeVal (.vitem k v))) ∧
        New st k (.plain v) = .ok (put st k (encodeVal v))) ∧
      (Has st k = true →
        Sets st [⟨k, .plain v⟩] = .ok (put st k (encodeVal (.vitem k v)))) ∧
      encodeVal (.vitem k v) ≠ encodeVal v ∧
      lookup (put st k (encodeVal (.vitem k v))) k = some (encodeVal (.vitem k v)) ∧
      lookup (put st k (encodeVal v)) k = some (encodeVal v) ∧
      Get (put st k (encodeVal (.vitem k v))) k = .ok (.vitem k v) ∧
      Value.vitem k v ≠ v := by
  intro st k v
  refine ⟨?_, ?_, ?_, lookup_put_self st k _, lookup_put_self st k _, ?_, vitem_ne k v⟩
  · intro h
    constructor
    · simp [News, firstExisting, h, applyBatch, itemToValue, underlying, makeKey]
    · simp [New, encodeForNew, h, makeKey]
  · intro h
    simp [Sets, firstMissing, h, applyBatch, itemToValue, underlying, makeKey]
  · intro heq
    exact vitem_ne k v (encodeVal_inj _ _ heq)
  · have hdec := decode_encode (.vitem k v) []
    rw [List.append_nil] at hdec
    simp [Get, GetRaw, makeKey, lookup_put_self, hdec]

/-- C10 witness: at key `[1]` and value `vnum 5`, the bytes stored by
`News` on the empty store and by `Sets` on a store holding `[1]` are the
encoded `Item` object, distinct from the bytes `New` stores, and `Get`
returns the `Item`-shaped object. -/
theorem C10_batch_encodes_whole_item_witness :
    Has ([] : Store) [1] = false ∧
    News [] [⟨[1], .plain (.vnum 5)⟩] = .ok (put [] [1] (encodeVal (.vitem [1] (.vnum 5)))) ∧
    New ([] : Store) [1] (.plain (.vnum 5)) = .ok (put [] [1] (encodeVal (.vnum 5))) ∧
    Has [([1], [9])] [1] = true ∧
    Sets [([1], [9])] [⟨[1], .plain (.vnum 5)⟩] =
      .ok (put [([1], [9])] [1] (encodeVal (.vitem [1] (.vnum 5)))) ∧
    encodeVal (.vitem [1] (.vnum 5)) ≠ encodeVal (.vnum 5) ∧
    Get (put ([] : Store) [1] (encodeVal (.vitem [1] (.vnum 5)))) [1] =
      .ok (.vitem [1] (.vnum 5)) :=
  ⟨rfl,
   ((C10_batch_encodes_whole_item [] [1] (.vnum 5)).1 rfl).1,
   ((C10_batch_encodes_whole_item [] [1] (.vnum 5)).1 rfl).2,
   rfl,
   ((C10_batch_encodes_whole_item [([1], [9])] [1] (.vnum 5)).2.1 rfl),
   (C10_batch_encodes_whole_item [] [1] (.vnum 5)).2.2.1,
   (C10_batch_encodes_whole_item [] [1] (.vnum 5)).2.2.2.2.2.1⟩

/-- C1: batch check-then-write policy.  An empty item list fails with
`EmptyBatch`; if any item fails the existence check (`News`: some key
present; `Sets`: some key absent) the whole call fails with
`AlreadyExists` resp. `NotFound` before any write — the error paths
return before the batch is built, so no key is created or modified;
otherwise every item is encoded and applied as one atomic engine batch. -/
theorem C1_batch_check_then_write :
    ∀ (st : Store) (vs : List Item),
      News st [] = .error .emptyBatch ∧
      Sets st [] = .error .emptyBatch ∧
      ((∃ v ∈ vs, Has st v.Key = true) →
        ∃ k, News st vs = .error (.alreadyExists k)) ∧
      ((∃ v ∈ vs, Has st v.Key = false) →
        ∃ k, Sets st vs = .error (.notFound k)) ∧
      (vs ≠ [] → (∀ v ∈ vs, Has st v.Key = false) →
        News st vs =
          .ok (applyBatch st (vs.map fun v => (v.Key, encodeVal (itemToValue v))))) ∧
      (vs ≠ [] → (∀ v ∈ vs, Has st v.Key = true) →
        Sets st vs =
          .ok (applyBatch st (vs.map fun v => (v.Key, encodeVal (itemToValue v))))) := by
  intro st vs
  have hne_len : vs ≠ [] → ¬(vs.length < 1) := by
    intro h
    cases vs with
    | nil => exact absurd rfl h
    | cons a l => simp
  refine ⟨rfl, rfl, ?_, ?_, ?_, ?_⟩
  · rintro ⟨v, hv, hhas⟩
    have hvs : vs ≠ [] := by rintro rfl; exact absurd hv (by simp)
    cases hfe : firstExisting st vs with
    | none =>
      have := (firstExisting_none_iff st vs).mp hfe v hv
      rw [this] at hhas
      exact absurd hhas (by simp)
    | some k =>
      exact ⟨k, by simp [News, hne_len hvs, hfe]⟩
  · rintro ⟨v, hv, hhas⟩
    have hvs : vs ≠ [] := by rintro rfl; exact absurd hv (by simp)
    cases hfm : firstMissing st vs with
    | none =>
      have := (firstMissing_none_iff st vs).mp hfm v hv
      rw [this] at hhas
      exact absurd hhas (by simp)
    | some k =>
      exact ⟨k, by simp [Sets, hne_len hvs, hfm]⟩
  · intro hvs hall
    have hfe : firstExisting st vs = none := (firstExisting_none_iff st vs).mpr hall
    simp [News, hne_len hvs, hfe, makeKey]
  · intro hvs hall
    have hfm : firstMissing st vs = none := (firstMissing_none_iff st vs).mpr hall
    simp [Sets, hne_len hvs, hfm, makeKey]

/-- C1 witness: on a store holding only key `[1]`, the empty batch fails
`EmptyBatch`; `News` over `{[1], [2]}` fails `AlreadyExists` with no
write; `Sets` over `{[2]}` fails `NotFound`; `News` over the fresh key
`[2]` and `Sets` over the present key `[1]` each apply the full batch. -/
theorem C1_batch_check_then_write_witness :
    News [([1], [9])] [] = .error .emptyBatch ∧
    Sets [([1], [9])] [] = .error .emptyBatch ∧
    (∃ k, News [([1], [9])]
        [⟨[1], .plain (.vnum 0)⟩, ⟨[2], .plain (.vnum 1)⟩] = .error (.alreadyExists k)) ∧
    (∃ k, Sets [([1], [9])] [⟨[2], .plain (.vnum 1)⟩] = .error (.notFound k)) ∧
    News [([1], [9])] [⟨[2], .plain (.vnum 1)⟩] =
      .ok (applyBatch [([1], [9])]
        ([⟨[2], .plain (.vnum 1)⟩].map fun v => (v.Key, encodeVal (itemToValue v)))) ∧
    Sets [([1], [9])] [⟨[1], .plain (.vnum 2)⟩] =
      .ok (applyBatch [([1], [9])]
        ([⟨[1], .plain (.vnum 2)⟩].map fun v => (v.Key, encodeVal (itemToValue v)))) :=
  ⟨(C1_batch_check_then_write [([1], [9])] []).1,
   (C1_batch_check_then_write [([1], [9])] []).2.1,
   (C1_batch_check_then_write [([1], [9])]
      [⟨[1], .plain (.vnum 0)⟩, ⟨[2], .plain (.vnum 1)⟩]).2.2.1
     ⟨⟨[1], .plain (.vnum 0)⟩, by simp, rfl⟩,
   (C1_batch_check_then_write [([1], [9])] [⟨[2], .plain (.vnum 1)⟩]).2.2.2.1
     ⟨⟨[2], .plain (.vnum 1)⟩, by simp, rfl⟩,
   (C1_batch_check_then_write [([1], [9])] [⟨[2], .plain (.vnum 1)⟩]).2.2.2.2.1
     (by simp) (by intro v hv; rw [List.mem_singleton] at hv; subst hv; rfl),
   (C1_batch_check_then_write [([1], [9])] [⟨[1], .plain (.vnum 2)⟩]).2.2.2.2.2
     (by simp) (by intro v hv; rw [List.mem_singleton] at hv; subst hv; rfl)⟩

/-- C5: the `next` closure returns a record with `true` while records
remain; once the session is exhausted it returns the zero `IterItem` with
`false` and releases the engine cursor at that point; and a reverse
iteration over an empty range releases the cursor eagerly inside
`GetIterator`, before any `next` call, the first `next` reporting no more
records. -/
theorem C5_iterator_exhaustion_release :
    (∀ it : Iterator, it.pending ≠ [] → (IterNext it).2.1 = true) ∧
    (∀ it : Iterator, it.pending = [] → it.hasUnsent = false →
      IterNext it = (⟨0, [], []⟩, false, ⟨[], false, it.n, true⟩)) ∧
    (∀ (st : Store) (pfx : Bytes), iterEntries st pfx = [] →
      GetIterator st pfx true = ⟨[], false, 0, true⟩ ∧
      IterNext (GetIterator st pfx true) = (⟨0, [], []⟩, false, ⟨[], false, 0, true⟩)) := by
  refine ⟨?_, ?_, ?_⟩
  · intro it h
    obtain ⟨p, hU, n, r⟩ := it
    cases p with
    | nil => exact absurd rfl h
    | cons x rest => cases hU <;> simp [IterNext]
  · intro it h1 h2
    obtain ⟨p, hU, n, r⟩ := it
    simp only at h1 h2
    subst h1; subst h2
    rfl
  · intro st pfx h
    have hg : GetIterator st pfx true = ⟨[], false, 0, true⟩ :=
      GetIterator_rev_nil st pfx (by rw [h]; rfl)
    exact ⟨hg, by rw [hg]; rfl⟩

/-- C5 witness: a one-record state answers `true`; the exhausted state
answers the zero record with `false` and marks the cursor released; a
reverse iteration on a store with no key under the prefix `[9]` is
released eagerly and its first `next` reports no more records. -/
theorem C5_iterator_exhaustion_release_witness :
    (IterNext ⟨[([1], [2])], false, 0, false⟩).2.1 = true ∧
    IterNext ⟨[], false, 5, false⟩ = (⟨0, [], []⟩, false, ⟨[], false, 5, true⟩) ∧
    iterEntries [([1], [2])] [9] = [] ∧
    GetIterator [([1], [2])] [9] true = ⟨[], false, 0, true⟩ ∧
    IterNext (GetIterator [([1], [2])] [9] true) =
      (⟨0, [], []⟩, false, ⟨[], false, 0, true⟩) :=
  ⟨C5_iterator_exhaustion_release.1 ⟨[([1], [2])], false, 0, false⟩ (by simp),
   C5_iterator_exhaustion_release.2.1 ⟨[], false, 5, false⟩ rfl rfl,
   rfl,
   (C5_iterator_exhaustion_release.2.2 [([1], [2])] [9] rfl).1,
   (C5_iterator_exhaustion_release.2.2 [([1], [2])] [9] rfl).2⟩

/-- C7: within one iteration session the `N` fields of successively
emitted records are strictly increasing, and the starting value depends
on directionality: over a non-empty range the first forward record
carries `N = 1` (the counter increments before first emission) while the
first reverse record carries `N = 0` (the pre-positioned record is
emitted before the counter increments). -/
theorem C7_sequence_counter :
    ∀ (st : Store) (pfx : Bytes),
      seqIncB (drain (GetIterator st pfx false)) = true ∧
      seqIncB (drain (GetIterator st pfx true)) = true ∧
      (iterEntries st pfx ≠ [] →
        (drain (GetIterator st pfx false)).head?.map IterItem.N = some 1 ∧
        (drain (GetIterator st pfx true)).head?.map IterItem.N = some 0 ∧
        (1 : Int) ≠ 0) := by
  intro st pfx
  refine ⟨?_, ?_, ?_⟩
  · rw [GetIterator_fwd, drain_eq]
    exact seqIncB_drainAux_false _ 0
  · cases hrev : (iterEntries st pfx).reverse with
    | nil =>
      rw [GetIterator_rev_nil st pfx hrev, drain_eq]
      rfl
    | cons y l =>
      rw [GetIterator_rev_cons st pfx y l hrev, drain_eq]
      exact seqIncB_drainAux_true y l 0
  · intro hne
    refine ⟨?_, ?_, by decide⟩
    · rw [GetIterator_fwd, drain_eq]
      cases hent : iterEntries st pfx with
      | nil => exact absurd hent hne
      | cons x rest => simp [drainAux]
    · cases hrev : (iterEntries st pfx).reverse with
      | nil =>
        have : iterEntries st pfx = [] := by
          rw [← List.reverse_reverse (iterEntries st pfx), hrev]
          rfl
        exact absurd this hne
      | cons y l =>
        rw [GetIterator_rev_cons st pfx y l hrev, drain_eq]
        simp [drainAux]

/-- C7 witness: over the two-key store `{[1], [3]}` with the full-range
iteration, both directions emit strictly increasing sequence numbers; the
first forward record carries `N = 1` and the first reverse record
`N = 0`. -/
theorem C7_sequence_counter_witness :
    seqIncB (drain (GetIterator [([1], [2]), ([3], [4])] [] false)) = true ∧
    seqIncB (drain (GetIterator [([1], [2]), ([3], [4])] [] true)) = true ∧
    iterEntries [([1], [2]), ([3], [4])] [] ≠ [] ∧
    (drain (GetIterator [([1], [2]), ([3], [4])] [] false)).head?.map IterItem.N = some 1 ∧
    (drain (GetIterator [([1], [2]), ([3], [4])] [] true)).head?.map IterItem.N = some 0 :=
  ⟨(C7_sequence_counter [([1], [2]), ([3], [4])] []).1,
   (C7_sequence_counter [([1], [2]), ([3], [4])] []).2.1,
   by simp [iterEntries],
   ((C7_sequence_counter [([1], [2]), ([3], [4])] []).2.2 (by simp [iterEntries])).1,
   ((C7_sequence_counter [([1], [2]), ([3], [4])] []).2.2 (by simp [iterEntries])).2.1⟩

/-- C6: over a byte-sorted store, full-keyspace iteration emits exactly
one record per stored key — ascending byte order forward, descending in
reverse; prefix iteration emits exactly the keys sharing the byte prefix,
with the same order discipline. -/
theorem C6_iteration_order :
    ∀ (st : Store) (pfx : Bytes), storeSortedB st = true →
      (drain (GetIterator st [] false)).length = st.length ∧
      (drain (GetIterator st [] true)).length = st.length ∧
      (drain (GetIterator st pfx false)).map IterItem.Key =
        (st.map Prod.fst).filter (keyHasPfx pfx) ∧
      (drain (GetIterator st pfx true)).map IterItem.Key =
        ((st.map Prod.fst).filter (keyHasPfx pfx)).reverse ∧
      ascB ((drain (GetIterator st pfx false)).map IterItem.Key) = true ∧
      descB ((drain (GetIterator st pfx true)).map IterItem.Key) = true := by
  intro st pfx h
  have hfwd : ∀ q : Bytes, (drain (GetIterator st q false)).map IterItem.Key =
      (st.map Prod.fst).filter (keyHasPfx q) := by
    intro q
    rw [GetIterator_fwd, drain_eq, drainAux_keys_false, iterEntries_eq_filter,
      map_fst_filter]
  have hrevmap : ∀ q : Bytes, (drain (GetIterator st q true)).map IterItem.Key =
      ((st.map Prod.fst).filter (keyHasPfx q)).reverse := by
    intro q
    cases hrev : (iterEntries st q).reverse with
    | nil =>
      rw [GetIterator_rev_nil st q hrev, drain_eq]
      have hent : iterEntries st q = [] := by
        rw [← List.reverse_reverse (iterEntries st q), hrev]
        rfl
      have hfil : (st.map Prod.fst).filter (keyHasPfx q) = [] := by
        rw [← map_fst_filter, ← iterEntries_eq_filter, hent]
        rfl
      rw [hfil]
      rfl
    | cons y l =>
      rw [GetIterator_rev_cons st q y l hrev, drain_eq, drainAux_keys_true, ← hrev,
        List.map_reverse, iterEntries_eq_filter, map_fst_filter]
  have hAllKeys : (st.map Prod.fst).filter (keyHasPfx []) = st.map Prod.fst :=
    List.filter_eq_self.mpr (fun a _ => rfl)
  refine ⟨?_, ?_, hfwd pfx, hrevmap pfx, ?_, ?_⟩
  · have hl := congrArg List.length (hfwd [])
    rw [hAllKeys] at hl
    simpa [List.length_map] using hl
  · have hl := congrArg List.length (hrevmap [])
    rw [hAllKeys] at hl
    simpa [List.length_map, List.length_reverse] using hl
  · rw [hfwd pfx]
    exact ascB_filter _ _ h
  · rw [hrevmap pfx]
    exact descB_reverse_of_ascB _ (ascB_filter _ _ h)

/-- C6 witness: over the sorted three-key store `{[1], [1,2], [2]}`,
full-range iteration emits three records both ways; with prefix `[1]`
exactly the keys `[1]` and `[1,2]` are emitted — ascending forward,
descending in reverse. -/
theorem C6_iteration_order_witness :
    storeSortedB [([1], [10]), ([1, 2], [11]), ([2], [12])] = true ∧
    ((drain (GetIterator [([1], [10]), ([1, 2], [11]), ([2], [12])] [] false)).length =
        [([1], [10]), ([1, 2], [11]), ([2], [12])].length ∧
      (drain (GetIterator [([1], [10]), ([1, 2], [11]), ([2], [12])] [] true)).length =
        [([1], [10]), ([1, 2], [11]), ([2], [12])].length ∧
      (drain (GetIterator [([1], [10]), ([1, 2], [11]), ([2], [12])] [1] false)).map
          IterItem.Key =
        ([([1], [10]), ([1, 2], [11]), ([2], [12])].map Prod.fst).filter (keyHasPfx [1]) ∧
      (drain (GetIterator [([1], [10]), ([1, 2], [11]), ([2], [12])] [1] true)).map
          IterItem.Key =
        (([([1], [10]), ([1, 2], [11]), ([2], [12])].map Prod.fst).filter
          (keyHasPfx [1])).reverse ∧
      ascB ((drain (GetIterator [([1], [10]), ([1, 2], [11]), ([2], [12])] [1] false)).map
        IterItem.Key) = true ∧
      descB ((drain (GetIterator [([1], [10]), ([1, 2], [11]), ([2], [12])] [1] true)).map
        IterItem.Key) = true) :=
  ⟨rfl, C6_iteration_order [([1], [10]), ([1, 2], [11]), ([2], [12])] [1] rfl⟩

end SebakStorage
